import Mathlib

/-!
Shallow embedding of the papertrail sink (src/sinks/papertrail.rs): the
event-to-wire encoding transform `encode_event` and the configuration
resolution in `PapertrailConfig::build`, together with proofs of the
specified properties.

Conventions of the embedding:
* machine integers are `Nat`/`Int` (the `pid as i32` cast is explicit);
* the encoded byte sequence is modelled as the UTF-8 string it spells,
  so the newline byte 0x0A corresponds to the character `\n`;
* a Rust panic (an `unwrap` firing) is the `.error` branch of `Except`,
  and the `Option<Bytes>` return value is the payload of `.ok`;
* collaborator code that lives outside this source file (the event type,
  `log_schema`, `apply_rules`, `TlsConfig::enabled`, the `syslog` and
  `serde_json` crates) is modelled from the spec, as marked on each
  definition.
-/

set_option autoImplicit false

namespace Papertrail

/-- A log event field value (the variants of the vector `Value` type that are
relevant to this sink). Following the embedding conventions, a float is
represented by its finiteness flag together with its decimal display string. -/
inductive Value where
  | str (s : String)
  | int (n : Int)
  | float (finite : Bool) (display : String)
  | bool (b : Bool)
deriving DecidableEq

/-- Modelled from the spec: `Value::to_string_lossy`, the display-string
rendering of a field value. -/
def Value.toStringLossy : Value → String
  | .str s => s
  | .int n => toString n
  | .float _ d => d
  | .bool b => if b then "true" else "false"

/-- `LogEvent`: an ordered mapping from field name to value, embedded as an
association list. -/
abbrev LogEvent := List (String × Value)

/-- Map lookup: the first value stored at key `k`. -/
def getKey (k : String) : LogEvent → Option Value
  | [] => none
  | (k2, v) :: rest => if k2 = k then some v else getKey k rest

/-- `LogEvent::remove`: drop the entry at key `k` (every occurrence, since a
map holds each key once). -/
def removeKey (k : String) : LogEvent → LogEvent
  | [] => []
  | (k2, v) :: rest => if k2 = k then removeKey k rest else (k2, v) :: removeKey k rest

/-- Modelled from the spec: `log_schema().host_key()`, the reserved host
field name. -/
def hostKey : String := "host"

/-- Modelled from the spec: `log_schema().message_key()`, the reserved
message field name. -/
def messageKey : String := "message"

/-- The codec selector (`Encoding` in `sinks::util`). -/
inductive Encoding where
  | Json
  | Text
deriving DecidableEq

/-- `EncodingConfig<Encoding>`: the codec plus the optional field-filter
rules. Modelled from the spec (the struct lives outside this source file). -/
structure EncodingConfig where
  codec : Encoding
  only_fields : Option (List String)
  except_fields : Option (List String)
deriving DecidableEq

/-- Modelled from the spec: `EncodingConfiguration::apply_rules` — keep only
the `only_fields` allow-list when present, then drop every `except_fields`
entry. -/
def apply_rules (cfg : EncodingConfig) (e : LogEvent) : LogEvent :=
  let kept : LogEvent :=
    match cfg.only_fields with
    | some allow => e.filter fun p => decide (p.1 ∈ allow)
    | none => e
  match cfg.except_fields with
  | some deny => kept.filter fun p => !decide (p.1 ∈ deny)
  | none => kept

/-- A primitive JSON value, as `serde_json` produces for one field value. -/
inductive JPrim where
  | str (s : String)
  | num (s : String)
  | bool (b : Bool)
deriving DecidableEq

/-- The JSON body of an event: a flat JSON object, field name to value. -/
abbrev JObj := List (String × JPrim)

/-- Modelled from the spec: JSON-serialize one field value; fails exactly on
a value that JSON cannot represent, i.e. a non-finite numeric value. -/
def valueToJson : Value → Option JPrim
  | .str s => some (.str s)
  | .int n => some (.num (toString n))
  | .float finite d => if finite then some (.num d) else none
  | .bool b => some (.bool b)

/-- Modelled from the spec: serialize a whole event into a JSON object,
failing if any field value is not representable. -/
def eventToJson : LogEvent → Option JObj
  | [] => some []
  | (k, v) :: rest =>
    match valueToJson v, eventToJson rest with
    | some j, some out => some ((k, j) :: out)
    | _, _ => none

/-- Lower-case hexadecimal digit character. -/
def hexDigit (n : Nat) : Char :=
  if n < 10 then Char.ofNat (48 + n) else Char.ofNat (87 + n)

/-- `serde_json` string escaping for one character. -/
def escapeChar (c : Char) : String :=
  if c = '"' then "\\\""
  else if c = '\\' then "\\\\"
  else if c = '\n' then "\\n"
  else if c = '\r' then "\\r"
  else if c = '\t' then "\\t"
  else if c = '\x08' then "\\b"
  else if c = '\x0c' then "\\f"
  else if c.toNat < 32 then
    "\\u00" ++ String.mk [hexDigit (c.toNat / 16), hexDigit (c.toNat % 16)]
  else String.singleton c

/-- `serde_json` string escaping, character by character. -/
def escapeList : List Char → String
  | [] => ""
  | c :: rest => escapeChar c ++ escapeList rest

/-- `serde_json` string escaping of a whole string. -/
def escapeString (s : String) : String := escapeList s.data

/-- Render one primitive JSON value as `serde_json` prints it. -/
def renderJPrim : JPrim → String
  | .str s => "\"" ++ escapeString s ++ "\""
  | .num s => s
  | .bool b => if b then "true" else "false"

/-- Render one `name:value` member of a JSON object. -/
def renderField (p : String × JPrim) : String :=
  "\"" ++ escapeString p.1 ++ "\":" ++ renderJPrim p.2

/-- Render the comma-separated members of a JSON object. -/
def renderFieldsSep : JObj → String
  | [] => ""
  | [p] => renderField p
  | p :: q :: rest => renderField p ++ "," ++ renderFieldsSep (q :: rest)

/-- Render a JSON object as `serde_json::to_string` prints it. -/
def renderJObj (o : JObj) : String :=
  "\x7b" ++ renderFieldsSep o ++ "\x7d"

/-- `Formatter3164` (from the `syslog` crate): the RFC3164 envelope
parameters. -/
structure Formatter3164 where
  facility : Nat
  hostname : Option String
  process : String
  pid : Int
deriving DecidableEq

/-- `Facility::LOG_USER`: the user-level facility code. -/
def LOG_USER : Nat := 1

/-- `Severity::LOG_INFO`: the informational severity code. -/
def LOG_INFO : Nat := 6

/-- Writing a string into an in-memory buffer (Rust `Vec<u8>` as
`io::Write`): buffer writes never fail. -/
def writeBuf (buf : Except String String) (s : String) : Except String String :=
  match buf with
  | .ok b => .ok (b ++ s)
  | .error msg => .error msg

/-- The header-plus-body line the formatter produces:
`<facility*8+severity>timestamp hostname process[pid]: message`, with the
hostname segment omitted when unset. -/
def renderedHeader (f : Formatter3164) (ts : String) (severity : Nat) (message : String) : String :=
  "" ++ ("<" ++ toString (f.facility * 8 + severity) ++ ">")
  ++ (ts ++ " ")
  ++ (match f.hostname with | some h => h ++ " " | none => "")
  ++ (f.process ++ "[" ++ toString f.pid ++ "]")
  ++ (": " ++ message)

/-- Modelled from the spec: `Formatter3164::format` writes
`<facility*8+severity>timestamp hostname process[pid]: message` into the
buffer through the fallible writer interface. The wall-clock timestamp is
supplied as the parameter `ts`. -/
def format3164 (f : Formatter3164) (ts : String) (severity : Nat) (message : String) :
    Except String String :=
  writeBuf (writeBuf (writeBuf (writeBuf (writeBuf (.ok "")
    ("<" ++ toString (f.facility * 8 + severity) ++ ">"))
    (ts ++ " "))
    (match f.hostname with | some h => h ++ " " | none => ""))
    (f.process ++ "[" ++ toString f.pid ++ "]"))
    (": " ++ message)

/-- The `pid as i32` cast: two-complement reinterpretation of a `u32`. -/
def u32ToI32 (n : Nat) : Int :=
  if n % 2 ^ 32 < 2 ^ 31 then ((n % 2 ^ 32 : Nat) : Int)
  else ((n % 2 ^ 32 : Nat) : Int) - 2 ^ 32

/-- The envelope `encode_event` builds: facility user-level, hostname the
display string of the removed host field, fixed process name `vector`, and
the captured pid. -/
def encodeFormatter (e : LogEvent) (pid : Nat) : Formatter3164 :=
  { facility := LOG_USER
    hostname := (getKey hostKey e).map Value.toStringLossy
    process := "vector"
    pid := u32ToI32 pid }

/-- The JSON body `serde_json::to_string(&log)` computes under the `Json`
codec: the host-stripped, rule-filtered event as a JSON object. -/
def encodeBodyJson (e : LogEvent) (enc : EncodingConfig) : Option JObj :=
  eventToJson (apply_rules enc (removeKey hostKey e))

/-- The body under the `Text` codec: the display string of the message-key
value of the host-stripped, rule-filtered event, or the empty string when
that key is absent. -/
def encodeBodyText (e : LogEvent) (enc : EncodingConfig) : String :=
  ((getKey messageKey (apply_rules enc (removeKey hostKey e))).map Value.toStringLossy).getD ""

/-- `encode_event` (papertrail.rs lines 76-110). `.error` models a Rust
panic (an `unwrap` firing), `.ok none` would be the `None` return, and
`.ok (some s)` is `Some(bytes)` with the bytes spelled as a string. -/
def encode_event (e : LogEvent) (pid : Nat) (enc : EncodingConfig) (ts : String) :
    Except String (Option String) :=
  let fmtr := encodeFormatter e pid
  let message : Except String String :=
    match enc.codec with
    | .Json =>
      match encodeBodyJson e enc with
      | some o => .ok (renderJObj o)
      | none => .error "serde_json::to_string unwrap"
    | .Text => .ok (encodeBodyText e enc)
  match message with
  | .error msg => .error msg
  | .ok body =>
    match format3164 fmtr ts LOG_INFO body with
    | .error msg => .error msg
    | .ok s => .ok (some (s ++ "\n"))

/-- `UriSerde`: an endpoint URI with optional host and port components. -/
structure UriSerde where
  host : Option String
  port_u16 : Option Nat
deriving DecidableEq

/-- The `MissingHost` configuration error text. -/
def missingHostError : String := "A host is required for endpoint"

/-- The `MissingPort` configuration error text. -/
def missingPortError : String := "A port is required for endpoint"

/-- The endpoint-resolution part of `PapertrailConfig::build`
(papertrail.rs lines 46-56): extract host, then port, then produce the
`host:port` address string. -/
def resolveEndpoint (u : UriSerde) : Except String String :=
  match u.host with
  | none => .error missingHostError
  | some h =>
    match u.port_u16 with
    | none => .error missingPortError
    | some p => .ok (h ++ ":" ++ toString p)

/-- `TlsConfig`. Modelled from the spec: an enabled flag plus trust
settings. -/
structure TlsConfig where
  enabled : Bool
  verify_certificate : Bool
  ca_file : Option String
deriving DecidableEq

/-- Modelled from the spec: `TlsConfig::enabled`, the default policy — TLS
on with standard trust settings. -/
def TlsConfig.enabledDefault : TlsConfig :=
  { enabled := true, verify_certificate := true, ca_file := none }

/-- The TLS line of `build` (papertrail.rs line 57):
`Some(this.tls.unwrap_or_else(TlsConfig::enabled))`. -/
def resolveTls (tls : Option TlsConfig) : Option TlsConfig :=
  some (tls.getD TlsConfig.enabledDefault)

/-- The key-level semantics of the filter rules: whether a field named `k`
survives `apply_rules`. -/
def keepB (cfg : EncodingConfig) (k : String) : Bool :=
  (match cfg.only_fields with | some allow => decide (k ∈ allow) | none => true)
  && (match cfg.except_fields with | some deny => !decide (k ∈ deny) | none => true)

/-- A policy whose filter rules never remove the message key. -/
def keepsMessage (enc : EncodingConfig) : Prop :=
  keepB enc messageKey = true

/-- A float value whose display string holds no newline; trivially true of
the other value forms. Every rendering of a real `f64` satisfies this. -/
def floatDisplayOk : Value → Prop
  | .float _ d => '\n' ∉ d.data
  | _ => True

/-- No newline character occurs in the string. -/
abbrev noNL (s : String) : Prop := '\n' ∉ s.data

/-! ### Map and filter lemmas -/

theorem getKey_removeKey_self (k : String) (e : LogEvent) :
    getKey k (removeKey k e) = none := by
  induction e with
  | nil => rfl
  | cons p rest ih =>
    obtain ⟨k2, v⟩ := p
    by_cases hk : k2 = k
    · simp [removeKey, hk, ih]
    · simp [removeKey, getKey, hk, ih]

theorem getKey_removeKey_ne (k k2 : String) (e : LogEvent) (h : k2 ≠ k) :
    getKey k2 (removeKey k e) = getKey k2 e := by
  induction e with
  | nil => rfl
  | cons p rest ih =>
    obtain ⟨k3, v⟩ := p
    by_cases hk : k3 = k
    · subst hk
      have : k3 ≠ k2 := fun hc => h (hc ▸ rfl)
      simp [removeKey, getKey, this, ih]
    · simp only [removeKey, if_neg hk]
      by_cases hk2 : k3 = k2
      · simp [getKey, hk2]
      · simp [getKey, hk2, ih]

theorem mem_removeKey (k : String) (e : LogEvent) (p : String × Value)
    (hp : p ∈ removeKey k e) : p ∈ e ∧ p.1 ≠ k := by
  induction e with
  | nil => cases hp
  | cons q rest ih =>
    obtain ⟨k2, v⟩ := q
    by_cases hk : k2 = k
    · rw [removeKey, if_pos hk] at hp
      exact ⟨List.mem_cons_of_mem _ (ih hp).1, (ih hp).2⟩
    · rw [removeKey, if_neg hk] at hp
      rcases List.mem_cons.mp hp with h | h
      · subst h
        exact ⟨List.mem_cons_self _ _, hk⟩
      · exact ⟨List.mem_cons_of_mem _ (ih h).1, (ih h).2⟩

theorem getKey_filter_key (f : String × Value → Bool) (k : String) (b : Bool)
    (hf : ∀ v, f (k, v) = b) (e : LogEvent) :
    getKey k (List.filter f e) = if b then getKey k e else none := by
  induction e with
  | nil => cases b <;> simp [getKey]
  | cons p rest ih =>
    obtain ⟨k2, v⟩ := p
    by_cases hk : k2 = k
    · subst hk
      cases hb : b
      · rw [List.filter_cons, if_neg (by simp [hf v, hb]), ih]
        simp [hb]
      · rw [List.filter_cons, if_pos (by simp [hf v, hb])]
        simp [getKey, hb]
    · cases hfv : f (k2, v)
      · rw [List.filter_cons, if_neg (by simp [hfv]), ih]
        cases b <;> simp [getKey, hk]
      · rw [List.filter_cons, if_pos (by simp [hfv])]
        cases b <;> simp [getKey, hk, ih]

theorem mem_apply_rules (cfg : EncodingConfig) (e : LogEvent) (p : String × Value)
    (hp : p ∈ apply_rules cfg e) : p ∈ e := by
  unfold apply_rules at hp
  cases ho : cfg.only_fields <;> cases he : cfg.except_fields <;>
    rw [ho, he] at hp <;> simp only [List.mem_filter] at hp <;> tauto

theorem mem_apply_rules_except (cfg : EncodingConfig) (deny : List String)
    (hF : cfg.except_fields = some deny) (k : String) (hk : k ∈ deny)
    (e : LogEvent) (p : String × Value) (hp : p ∈ apply_rules cfg e) : p.1 ≠ k := by
  unfold apply_rules at hp
  rw [hF] at hp
  cases cfg.only_fields <;>
    · simp only [List.mem_filter, Bool.not_eq_true', decide_eq_false_iff_not] at hp
      intro hc
      exact hp.2 (hc ▸ hk)

theorem getKey_apply_rules (cfg : EncodingConfig) (k : String) (e : LogEvent) :
    getKey k (apply_rules cfg e) = if keepB cfg k then getKey k e else none := by
  unfold apply_rules keepB
  cases ho : cfg.only_fields with
  | none =>
    cases he : cfg.except_fields with
    | none => simp
    | some deny =>
      rw [getKey_filter_key _ k (!decide (k ∈ deny)) (fun _ => rfl) e]
      simp
  | some allow =>
    cases he : cfg.except_fields with
    | none =>
      rw [getKey_filter_key _ k (decide (k ∈ allow)) (fun _ => rfl) e]
      simp
    | some deny =>
      rw [getKey_filter_key _ k (!decide (k ∈ deny)) (fun _ => rfl),
        getKey_filter_key _ k (decide (k ∈ allow)) (fun _ => rfl) e]
      by_cases h1 : k ∈ allow <;> by_cases h2 : k ∈ deny <;> simp [h1, h2]

/-! ### JSON serialization lemmas -/

theorem eventToJson_forall2 (e : LogEvent) (o : JObj) (h : eventToJson e = some o) :
    List.Forall₂ (fun (p : String × Value) (q : String × JPrim) =>
      p.1 = q.1 ∧ valueToJson p.2 = some q.2) e o := by
  induction e generalizing o with
  | nil =>
    unfold eventToJson at h
    cases h
    exact List.Forall₂.nil
  | cons p rest ih =>
    obtain ⟨k, v⟩ := p
    unfold eventToJson at h
    cases hv : valueToJson v <;> rw [hv] at h
    · cases h
    · cases hr : eventToJson rest <;> rw [hr] at h
      · cases h
      · cases h
        exact List.Forall₂.cons ⟨rfl, hv⟩ (ih _ hr)

theorem eventToJson_keys (e : LogEvent) (o : JObj) (h : eventToJson e = some o) :
    o.map Prod.fst = e.map Prod.fst := by
  induction e generalizing o with
  | nil =>
    unfold eventToJson at h
    cases h
    rfl
  | cons p rest ih =>
    obtain ⟨k, v⟩ := p
    unfold eventToJson at h
    cases hv : valueToJson v <;> rw [hv] at h
    · cases h
    · cases hr : eventToJson rest <;> rw [hr] at h
      · cases h
      · cases h
        simp [ih _ hr]

theorem eventToJson_isSome (e : LogEvent)
    (h : ∀ p ∈ e, ∃ j, valueToJson p.2 = some j) : ∃ o, eventToJson e = some o := by
  induction e with
  | nil => exact ⟨[], rfl⟩
  | cons p rest ih =>
    obtain ⟨k, v⟩ := p
    obtain ⟨j, hj⟩ := h (k, v) (List.mem_cons_self _ _)
    obtain ⟨out, hout⟩ := ih fun q hq => h q (List.mem_cons_of_mem _ hq)
    exact ⟨(k, j) :: out, by rw [eventToJson, hj, hout]⟩

/-! ### Newline-freedom lemmas -/

theorem noNL_append (a b : String) (ha : noNL a) (hb : noNL b) : noNL (a ++ b) := by
  unfold noNL at *
  rw [String.data_append]
  intro hc
  rcases List.mem_append.mp hc with h | h
  · exact ha h
  · exact hb h

theorem digitChar_ne_newline (n : Nat) : Nat.digitChar n ≠ '\n' :=
  match n with
  | 0 => by decide
  | 1 => by decide
  | 2 => by decide
  | 3 => by decide
  | 4 => by decide
  | 5 => by decide
  | 6 => by decide
  | 7 => by decide
  | 8 => by decide
  | 9 => by decide
  | 10 => by decide
  | 11 => by decide
  | 12 => by decide
  | 13 => by decide
  | 14 => by decide
  | 15 => by decide
  | (_ + 16) => by exact (by decide : ('*' : Char) ≠ '\n')

theorem toDigitsCore_ne_newline (b : Nat) (fuel : Nat) :
    ∀ (n : Nat) (acc : List Char), (∀ c ∈ acc, c ≠ '\n') →
      ∀ c ∈ Nat.toDigitsCore b fuel n acc, c ≠ '\n' := by
  induction fuel with
  | zero =>
    intro n acc hacc c hc
    exact hacc c hc
  | succ fuel ih =>
    intro n acc hacc c hc
    rw [Nat.toDigitsCore] at hc
    by_cases hnb : n / b = 0
    · rw [if_pos hnb] at hc
      rcases List.mem_cons.mp hc with h | h
      · exact h ▸ digitChar_ne_newline _
      · exact hacc c h
    · rw [if_neg hnb] at hc
      refine ih (n / b) (Nat.digitChar (n % b) :: acc) ?_ c hc
      intro c2 hc2
      rcases List.mem_cons.mp hc2 with h | h
      · exact h ▸ digitChar_ne_newline _
      · exact hacc c2 h

theorem noNL_natRepr (n : Nat) : noNL (Nat.repr n) := by
  intro hc
  exact toDigitsCore_ne_newline 10 (n + 1) n [] (by intro c h; cases h) '\n' hc rfl

theorem noNL_toStringNat (n : Nat) : noNL (toString n) := noNL_natRepr n

theorem noNL_toStringInt (i : Int) : noNL (toString i) := by
  cases i with
  | ofNat m => exact noNL_natRepr m
  | negSucc m =>
    show noNL ("-" ++ toString (m + 1))
    exact noNL_append _ _ (by decide) (noNL_natRepr (m + 1))

theorem hexDigit_ne_newline (n : Nat) (h : n < 16) : hexDigit n ≠ '\n' := by
  interval_cases n <;> decide

theorem noNL_escapeChar (c : Char) : noNL (escapeChar c) := by
  unfold escapeChar
  by_cases h1 : c = '"'
  · simp only [if_pos h1]; decide
  rw [if_neg h1]
  by_cases h2 : c = '\\'
  · simp only [if_pos h2]; decide
  rw [if_neg h2]
  by_cases h3 : c = '\n'
  · simp only [if_pos h3]; decide
  rw [if_neg h3]
  by_cases h4 : c = '\r'
  · simp only [if_pos h4]; decide
  rw [if_neg h4]
  by_cases h5 : c = '\t'
  · simp only [if_pos h5]; decide
  rw [if_neg h5]
  by_cases h6 : c = '\x08'
  · simp only [if_pos h6]; decide
  rw [if_neg h6]
  by_cases h7 : c = '\x0c'
  · simp only [if_pos h7]; decide
  rw [if_neg h7]
  by_cases h8 : c.toNat < 32
  · rw [if_pos h8]
    refine noNL_append _ _ (by decide) ?_
    intro hc
    simp only [String.data] at hc
    rcases List.mem_cons.mp hc with h | h
    · exact hexDigit_ne_newline (c.toNat / 16) (by omega) h.symm
    · rcases List.mem_cons.mp h with h9 | h9
      · exact hexDigit_ne_newline (c.toNat % 16) (Nat.mod_lt _ (by omega)) h9.symm
      · cases h9
  · rw [if_neg h8]
    intro hc
    have : '\n' = c := by
      rcases List.mem_cons.mp hc with h | h
      · exact h
      · cases h
    exact h3 this.symm

theorem noNL_escapeList (l : List Char) : noNL (escapeList l) := by
  induction l with
  | nil => decide
  | cons c rest ih => exact noNL_append _ _ (noNL_escapeChar c) ih

theorem noNL_escapeString (s : String) : noNL (escapeString s) :=
  noNL_escapeList s.data

theorem noNL_renderJPrim (v : Value) (j : JPrim) (hv : valueToJson v = some j)
    (hfd : floatDisplayOk v) : noNL (renderJPrim j) := by
  cases v with
  | str s =>
    cases hv
    exact noNL_append _ _ (noNL_append _ _ (by decide) (noNL_escapeString s)) (by decide)
  | int n =>
    cases hv
    exact noNL_toStringInt n
  | float finite d =>
    cases finite
    · exact Option.noConfusion hv
    · have hj : some (JPrim.num d) = some j := hv
      cases hj
      exact hfd
  | bool b =>
    cases hv
    cases b <;> decide

theorem noNL_renderField (v : Value) (q : String × JPrim)
    (hv : valueToJson v = some q.2) (hfd : floatDisplayOk v) :
    noNL (renderField q) := by
  unfold renderField
  exact noNL_append _ _
    (noNL_append _ _ (noNL_append _ _ (by decide) (noNL_escapeString q.1)) (by decide))
    (noNL_renderJPrim v q.2 hv hfd)

theorem eventToJson_fields_noNL (ev : LogEvent) (o : JObj) (h : eventToJson ev = some o)
    (hfd : ∀ p ∈ ev, floatDisplayOk p.2) : ∀ q ∈ o, noNL (renderField q) := by
  induction ev generalizing o with
  | nil =>
    unfold eventToJson at h
    cases h
    intro q hq
    cases hq
  | cons p rest ih =>
    obtain ⟨k, v⟩ := p
    unfold eventToJson at h
    cases hv : valueToJson v <;> rw [hv] at h
    · cases h
    · cases hr : eventToJson rest <;> rw [hr] at h
      · cases h
      · cases h
        intro q hq
        rcases List.mem_cons.mp hq with h1 | h1
        · subst h1
          exact noNL_renderField v _ hv (hfd (k, v) (List.mem_cons_self _ _))
        · exact ih _ hr (fun p hp => hfd p (List.mem_cons_of_mem _ hp)) q h1

theorem noNL_renderFieldsSep (o : JObj) (h : ∀ q ∈ o, noNL (renderField q)) :
    noNL (renderFieldsSep o) := by
  induction o with
  | nil => decide
  | cons p tail ih =>
    cases tail with
    | nil =>
      show noNL (renderField p)
      exact h p (List.mem_cons_self _ _)
    | cons q rest =>
      show noNL (renderField p ++ "," ++ renderFieldsSep (q :: rest))
      exact noNL_append _ _
        (noNL_append _ _ (h p (List.mem_cons_self _ _)) (by decide))
        (ih fun r hr => h r (List.mem_cons_of_mem _ hr))

theorem noNL_renderJObj (ev : LogEvent) (o : JObj) (h : eventToJson ev = some o)
    (hfd : ∀ p ∈ ev, floatDisplayOk p.2) : noNL (renderJObj o) := by
  unfold renderJObj
  exact noNL_append _ _
    (noNL_append _ _ (by decide) (noNL_renderFieldsSep o (eventToJson_fields_noNL ev o h hfd)))
    (by decide)

theorem noNL_renderedHeader (f : Formatter3164) (ts : String) (severity : Nat)
    (message : String) (hts : noNL ts)
    (hh : ∀ h, f.hostname = some h → noNL h) (hp : noNL f.process)
    (hm : noNL message) : noNL (renderedHeader f ts severity message) := by
  unfold renderedHeader
  refine noNL_append _ _ (noNL_append _ _ (noNL_append _ _ (noNL_append _ _
    (noNL_append _ _ (by decide) ?_) ?_) ?_) ?_) ?_
  · exact noNL_append _ _ (noNL_append _ _ (by decide) (noNL_toStringNat _)) (by decide)
  · exact noNL_append _ _ hts (by decide)
  · cases hhn : f.hostname with
    | none => decide
    | some hn => exact noNL_append _ _ (hh hn hhn) (by decide)
  · exact noNL_append _ _ (noNL_append _ _ (noNL_append _ _ hp (by decide))
      (noNL_toStringInt _)) (by decide)
  · exact noNL_append _ _ (by decide) hm

/-! ### Formatter and encoder case analysis -/

theorem format3164_eq (f : Formatter3164) (ts : String) (severity : Nat)
    (message : String) :
    format3164 f ts severity message = .ok (renderedHeader f ts severity message) := by
  obtain ⟨fac, hn, pr, pid⟩ := f
  cases hn <;> rfl

theorem encode_cases (e : LogEvent) (pid : Nat) (enc : EncodingConfig) (ts : String) :
    (enc.codec = .Json ∧ ∃ o, encodeBodyJson e enc = some o ∧
      encode_event e pid enc ts
        = .ok (some (renderedHeader (encodeFormatter e pid) ts LOG_INFO (renderJObj o) ++ "\n")))
  ∨ (enc.codec = .Json ∧ encodeBodyJson e enc = none ∧
      encode_event e pid enc ts = .error "serde_json::to_string unwrap")
  ∨ (enc.codec = .Text ∧
      encode_event e pid enc ts
        = .ok (some (renderedHeader (encodeFormatter e pid) ts LOG_INFO (encodeBodyText e enc) ++ "\n"))) := by
  cases hc : enc.codec with
  | Json =>
    cases ho : encodeBodyJson e enc with
    | none =>
      refine Or.inr (Or.inl ⟨rfl, rfl, ?_⟩)
      simp only [encode_event, hc, ho]
    | some o =>
      refine Or.inl ⟨rfl, o, rfl, ?_⟩
      simp only [encode_event, hc, ho, format3164_eq]
  | Text =>
    refine Or.inr (Or.inr ⟨rfl, ?_⟩)
    simp only [encode_event, hc, format3164_eq]

theorem terminal_newline (s : String) (h : noNL s) :
    s ++ "\n" ≠ "" ∧ (s ++ "\n").data.getLast? = some '\n'
      ∧ '\n' ∉ (s ++ "\n").data.dropLast := by
  refine ⟨?_, ?_, ?_⟩
  · intro hc
    have h1 : (s ++ "\n").data = ("" : String).data := by rw [hc]
    rw [String.data_append] at h1
    have h2 : s.data ++ ['\n'] = ([] : List Char) := h1
    have h3 := congrArg List.length h2
    simp at h3
  · rw [String.data_append]
    exact List.getLast?_concat _
  · rw [String.data_append]
    show '\n' ∉ (s.data ++ ['\n']).dropLast
    rw [List.dropLast_concat]
    exact h

theorem encodeBodyText_eq (e : LogEvent) (enc : EncodingConfig) :
    encodeBodyText e enc
      = if keepB enc messageKey then ((getKey messageKey e).map Value.toStringLossy).getD ""
        else "" := by
  unfold encodeBodyText
  rw [getKey_apply_rules, getKey_removeKey_ne _ _ _ (by decide : messageKey ≠ hostKey)]
  cases keepB enc messageKey <;> simp

theorem encodeFormatter_hostname_noNL (e : LogEvent) (pid : Nat)
    (hh : ∀ v, getKey hostKey e = some v → noNL v.toStringLossy) :
    ∀ h, (encodeFormatter e pid).hostname = some h → noNL h := by
  intro h hsome
  simp only [encodeFormatter] at hsome
  cases hv : getKey hostKey e with
  | none => rw [hv] at hsome; cases hsome
  | some v =>
    rw [hv] at hsome
    cases hsome
    exact hh v hv

/-! ### The claims -/

/-- C1: the code contradicts the claim. On an event holding a value not
representable in JSON (a non-finite float), encoding under the Json codec
does not return a recoverable SerializationError: `serde_json::to_string`
is unwrapped, so the serialization failure aborts the encoding function
(modelled as the `.error` branch). -/
theorem encode_event_panics_on_nonfinite_float :
    encode_event [("x", Value.float false "NaN")] 0
      ⟨Encoding.Json, none, none⟩ "Oct 11 00:00:00"
      = .error "serde_json::to_string unwrap" := rfl

/-- C2: the host field is removed before filtering and serialization: when
present, the envelope hostname is its display string and the host key never
appears among the JSON body keys; when absent, the hostname is left unset;
and the encoded output is the rendered envelope header around some body. -/
theorem host_field_extraction (e : LogEvent) (pid : Nat) (enc : EncodingConfig)
    (ts : String) :
    (∀ v, getKey hostKey e = some v →
        (encodeFormatter e pid).hostname = some v.toStringLossy)
    ∧ (getKey hostKey e = none → (encodeFormatter e pid).hostname = none)
    ∧ (∀ o, encodeBodyJson e enc = some o → hostKey ∉ o.map Prod.fst)
    ∧ (∀ s, encode_event e pid enc ts = .ok (some s) →
        ∃ body, s = renderedHeader (encodeFormatter e pid) ts LOG_INFO body ++ "\n") := by
  refine ⟨?_, ?_, ?_, ?_⟩
  · intro v hv
    simp [encodeFormatter, hv]
  · intro hv
    simp [encodeFormatter, hv]
  · intro o ho hmem
    rw [eventToJson_keys _ _ ho] at hmem
    obtain ⟨p, hp, hp1⟩ := List.mem_map.mp hmem
    exact (mem_removeKey hostKey e p (mem_apply_rules enc _ p hp)).2 hp1
  · intro s hs
    rcases encode_cases e pid enc ts with ⟨_, o, _, he⟩ | ⟨_, _, he⟩ | ⟨_, he⟩
    · rw [he] at hs
      cases hs
      exact ⟨renderJObj o, rfl⟩
    · rw [he] at hs
      cases hs
    · rw [he] at hs
      cases hs
      exact ⟨encodeBodyText e enc, rfl⟩

/-- C2 witness at a concrete event with and without a host field. -/
theorem host_field_extraction_witness :
    (encodeFormatter [("host", Value.str "h1"), ("message", Value.str "m")] 5).hostname
        = some "h1"
    ∧ (encodeFormatter [("message", Value.str "m")] 5).hostname = none
    ∧ hostKey ∉ ([("message", JPrim.str "m")] : JObj).map Prod.fst
    ∧ ∃ body, "<14>Oct 11 00:00:00 h1 vector[5]: \x7b\"message\":\"m\"\x7d\n"
        = renderedHeader
            (encodeFormatter [("host", Value.str "h1"), ("message", Value.str "m")] 5)
            "Oct 11 00:00:00" LOG_INFO body ++ "\n" :=
  ⟨(host_field_extraction [("host", Value.str "h1"), ("message", Value.str "m")] 5
      ⟨Encoding.Json, none, none⟩ "Oct 11 00:00:00").1 (Value.str "h1") rfl,
   (host_field_extraction [("message", Value.str "m")] 5
      ⟨Encoding.Json, none, none⟩ "Oct 11 00:00:00").2.1 rfl,
   (host_field_extraction [("host", Value.str "h1"), ("message", Value.str "m")] 5
      ⟨Encoding.Json, none, none⟩ "Oct 11 00:00:00").2.2.1 [("message", JPrim.str "m")] rfl,
   (host_field_extraction [("host", Value.str "h1"), ("message", Value.str "m")] 5
      ⟨Encoding.Json, none, none⟩ "Oct 11 00:00:00").2.2.2 _ rfl⟩

/-- C3: field filtering precedes body serialization: an excluded field name
never appears among the JSON body keys, and an excluded message key yields
an empty Text body, so excluded fields appear in neither codec output. -/
theorem except_fields_never_serialized (e : LogEvent) (enc : EncodingConfig)
    (deny : List String) (k : String) (hF : enc.except_fields = some deny)
    (hk : k ∈ deny) :
    (∀ o, encodeBodyJson e enc = some o → k ∉ o.map Prod.fst)
    ∧ (k = messageKey → encodeBodyText e enc = "") := by
  constructor
  · intro o ho hmem
    rw [eventToJson_keys _ _ ho] at hmem
    obtain ⟨p, hp, hp1⟩ := List.mem_map.mp hmem
    exact mem_apply_rules_except enc deny hF k hk _ p hp hp1
  · intro hkm
    have hkb : keepB enc messageKey = false := by
      unfold keepB
      rw [hF]
      simp [hkm ▸ hk]
    rw [encodeBodyText_eq, hkb]
    simp

/-- C3 witness at the spec scenario: except_fields = [magic]. -/
theorem except_fields_never_serialized_witness :
    "magic" ∉ ([("message", JPrim.str "vector")] : JObj).map Prod.fst :=
  (except_fields_never_serialized
      [("message", Value.str "vector"), ("magic", Value.str "key")]
      ⟨Encoding.Json, none, some ["magic"]⟩ ["magic"] "magic" rfl
      (List.mem_singleton.mpr rfl)).1
    [("message", JPrim.str "vector")] rfl

/-- C4: Json codec round-trip: a successful encode carries the JSON object
of the host-stripped, rule-filtered event in its body, and that object
matches the filtered field map entry by entry (same names, values the JSON
serializations of the original values). -/
theorem json_codec_roundtrip (e : LogEvent) (pid : Nat) (enc : EncodingConfig)
    (ts : String) (s : String) (hc : enc.codec = .Json)
    (hs : encode_event e pid enc ts = .ok (some s)) :
    ∃ o, encodeBodyJson e enc = some o
      ∧ s = renderedHeader (encodeFormatter e pid) ts LOG_INFO (renderJObj o) ++ "\n"
      ∧ List.Forall₂ (fun (p : String × Value) (q : String × JPrim) =>
          p.1 = q.1 ∧ valueToJson p.2 = some q.2)
        (apply_rules enc (removeKey hostKey e)) o := by
  rcases encode_cases e pid enc ts with ⟨_, o, ho, he⟩ | ⟨_, _, he⟩ | ⟨hct, he⟩
  · rw [he] at hs
    cases hs
    exact ⟨o, ho, rfl, eventToJson_forall2 _ _ ho⟩
  · rw [he] at hs
    cases hs
  · rw [hct] at hc
    cases hc

/-- C4 witness at the spec scenario event. -/
theorem json_codec_roundtrip_witness :
    ∃ o, encodeBodyJson [("message", Value.str "vector"), ("magic", Value.str "key")]
          ⟨Encoding.Json, none, some ["magic"]⟩ = some o
      ∧ "<14>Oct 11 00:00:00 vector[0]: \x7b\"message\":\"vector\"\x7d\n"
          = renderedHeader
              (encodeFormatter [("message", Value.str "vector"), ("magic", Value.str "key")] 0)
              "Oct 11 00:00:00" LOG_INFO (renderJObj o) ++ "\n"
      ∧ List.Forall₂ (fun (p : String × Value) (q : String × JPrim) =>
          p.1 = q.1 ∧ valueToJson p.2 = some q.2)
        (apply_rules ⟨Encoding.Json, none, some ["magic"]⟩
          (removeKey hostKey [("message", Value.str "vector"), ("magic", Value.str "key")])) o :=
  json_codec_roundtrip [("message", Value.str "vector"), ("magic", Value.str "key")] 0
    ⟨Encoding.Json, none, some ["magic"]⟩ "Oct 11 00:00:00"
    "<14>Oct 11 00:00:00 vector[0]: \x7b\"message\":\"vector\"\x7d\n" rfl rfl

/-- C5 counterexample: under the Text codec a message whose display string
holds a newline yields an encoded record with an internal newline byte, so
the claim as stated is false. -/
theorem encode_internal_newline_counterexample :
    encode_event [("message", Value.str "a\nb")] 0
        ⟨Encoding.Text, none, none⟩ "Oct 11 00:00:00"
      = .ok (some "<14>Oct 11 00:00:00 vector[0]: a\nb\n")
    ∧ '\n' ∈ ("<14>Oct 11 00:00:00 vector[0]: a\nb\n").data.dropLast :=
  ⟨rfl, by decide⟩

/-- C5 (amended): when the timestamp, the hostname display string, the Text
message display string and every float display string are newline-free —
as they are for real timestamps and floats — a successfully encoded event
is non-empty, ends in exactly one newline byte, and holds no internal
newline. -/
theorem encode_framing (e : LogEvent) (pid : Nat) (enc : EncodingConfig)
    (ts : String) (s : String)
    (hts : noNL ts)
    (hh : ∀ v, getKey hostKey e = some v → noNL v.toStringLossy)
    (htxt : enc.codec = .Text → noNL (encodeBodyText e enc))
    (hfd : ∀ p ∈ e, floatDisplayOk p.2)
    (hs : encode_event e pid enc ts = .ok (some s)) :
    s ≠ "" ∧ s.data.getLast? = some '\n' ∧ '\n' ∉ s.data.dropLast := by
  have hhost := encodeFormatter_hostname_noNL e pid hh
  have hproc : noNL (encodeFormatter e pid).process := by
    simp only [encodeFormatter]
    decide
  rcases encode_cases e pid enc ts with ⟨_, o, ho, he⟩ | ⟨_, _, he⟩ | ⟨hct, he⟩
  · rw [he] at hs
    cases hs
    refine terminal_newline _ (noNL_renderedHeader _ _ _ _ hts hhost hproc ?_)
    refine noNL_renderJObj _ o ho ?_
    intro p hp
    exact hfd p (mem_removeKey hostKey e p (mem_apply_rules enc _ p hp)).1
  · rw [he] at hs
    cases hs
  · rw [he] at hs
    cases hs
    exact terminal_newline _ (noNL_renderedHeader _ _ _ _ hts hhost hproc (htxt hct))

/-- C5 witness at a concrete newline-free event. -/
theorem encode_framing_witness :
    "<14>Oct 11 00:00:00 vector[0]: hello\n" ≠ ""
    ∧ ("<14>Oct 11 00:00:00 vector[0]: hello\n").data.getLast? = some '\n'
    ∧ '\n' ∉ ("<14>Oct 11 00:00:00 vector[0]: hello\n").data.dropLast :=
  encode_framing [("message", Value.str "hello")] 0 ⟨Encoding.Text, none, none⟩
    "Oct 11 00:00:00" "<14>Oct 11 00:00:00 vector[0]: hello\n"
    (by decide)
    (fun v hv => Option.noConfusion hv)
    (fun _ => by decide)
    (by
      intro p hp
      cases List.mem_singleton.mp hp
      trivial)
    rfl

/-- C6: under the Text codec the encoded body is exactly the display string
of the message-key value — equal to it when the key is present and kept by
the filter rules, empty when the key is absent — and no other event field
affects the body. -/
theorem text_codec_message_body (e : LogEvent) (pid : Nat) (enc : EncodingConfig)
    (ts : String) (hc : enc.codec = .Text) :
    encode_event e pid enc ts
      = .ok (some (renderedHeader (encodeFormatter e pid) ts LOG_INFO (encodeBodyText e enc) ++ "\n"))
    ∧ (∀ v, keepsMessage enc → getKey messageKey e = some v →
        encodeBodyText e enc = v.toStringLossy)
    ∧ (getKey messageKey e = none → encodeBodyText e enc = "")
    ∧ (∀ e2 : LogEvent, getKey messageKey e2 = getKey messageKey e →
        encodeBodyText e2 enc = encodeBodyText e enc) := by
  refine ⟨?_, ?_, ?_, ?_⟩
  · rcases encode_cases e pid enc ts with ⟨hcj, _, _, _⟩ | ⟨hcj, _, _⟩ | ⟨_, he⟩
    · rw [hcj] at hc; cases hc
    · rw [hcj] at hc; cases hc
    · exact he
  · intro v hkeep hv
    have hkb : keepB enc messageKey = true := hkeep
    rw [encodeBodyText_eq, hv, hkb]
    simp
  · intro hv
    rw [encodeBodyText_eq, hv]
    cases keepB enc messageKey <;> simp
  · intro e2 h2
    rw [encodeBodyText_eq, encodeBodyText_eq, h2]

/-- C6 witness: message key hello yields body hello; no message key yields
the empty body. -/
theorem text_codec_message_body_witness :
    encodeBodyText [("message", Value.str "hello")] ⟨Encoding.Text, none, none⟩ = "hello"
    ∧ encodeBodyText [] ⟨Encoding.Text, none, none⟩ = "" :=
  ⟨(text_codec_message_body [("message", Value.str "hello")] 0
      ⟨Encoding.Text, none, none⟩ "Oct 11 00:00:00" rfl).2.1
      (Value.str "hello") rfl rfl,
   (text_codec_message_body [] 0
      ⟨Encoding.Text, none, none⟩ "Oct 11 00:00:00" rfl).2.2.1 rfl⟩

/-- C7 counterexample: an endpoint with neither host nor port has no port,
yet resolution fails with the missing-host error rather than the
missing-port error, refuting the claimed biconditional for MissingPort. -/
theorem resolveEndpoint_both_missing :
    (UriSerde.mk none none).port_u16 = none
    ∧ resolveEndpoint (UriSerde.mk none none) = .error missingHostError
    ∧ missingHostError ≠ missingPortError :=
  ⟨rfl, rfl, by decide⟩

/-- C7 (amended): resolution fails with MissingHost exactly when the host is
absent, fails with MissingPort exactly when a host is present but the port
is absent, and otherwise returns the address string host:port. -/
theorem resolveEndpoint_spec (u : UriSerde) :
    (resolveEndpoint u = .error missingHostError ↔ u.host = none)
    ∧ (resolveEndpoint u = .error missingPortError
        ↔ (∃ h, u.host = some h) ∧ u.port_u16 = none)
    ∧ ∀ h p, u.host = some h → u.port_u16 = some p →
        resolveEndpoint u = .ok (h ++ ":" ++ toString p) := by
  obtain ⟨ho, po⟩ := u
  cases ho <;> cases po <;>
    refine ⟨?_, ?_, ?_⟩ <;>
    simp [resolveEndpoint, missingHostError, missingPortError]

/-- C7 witness at the spec example endpoint. -/
theorem resolveEndpoint_spec_witness :
    resolveEndpoint (UriSerde.mk (some "logs.example.com") (some 12345))
      = .ok "logs.example.com:12345" :=
  (resolveEndpoint_spec (UriSerde.mk (some "logs.example.com") (some 12345))).2.2
    "logs.example.com" 12345 rfl rfl

/-- C8: a supplied tls block is used verbatim; an absent one resolves to the
default policy with TLS enabled, so omission never yields an unencrypted
policy. -/
theorem tls_policy_resolution :
    (∀ c, resolveTls (some c) = some c)
    ∧ resolveTls none = some TlsConfig.enabledDefault
    ∧ TlsConfig.enabledDefault.enabled = true
    ∧ ∀ o, ∃ c, resolveTls o = some c ∧ (o = none → c.enabled = true) := by
  refine ⟨fun c => rfl, rfl, rfl, fun o => ?_⟩
  cases o with
  | none => exact ⟨TlsConfig.enabledDefault, rfl, fun _ => rfl⟩
  | some c => exact ⟨c, rfl, fun h => Option.noConfusion h⟩

/-- C8 witness: a concrete explicit tls block and the absent case. -/
theorem tls_policy_resolution_witness :
    resolveTls (some (TlsConfig.mk false false none))
        = some (TlsConfig.mk false false none)
    ∧ resolveTls none = some TlsConfig.enabledDefault :=
  ⟨tls_policy_resolution.1 (TlsConfig.mk false false none),
   tls_policy_resolution.2.1⟩

/-- C9: rendering the RFC3164 envelope never fails: for every event, pid,
timestamp and message body, the formatting of the envelope built by the
encoder returns `.ok`, so the error branch behind the unwrap is
unreachable. -/
theorem format_envelope_never_fails (e : LogEvent) (pid : Nat) (ts : String)
    (body : String) :
    ∃ s, format3164 (encodeFormatter e pid) ts LOG_INFO body = .ok s :=
  ⟨renderedHeader (encodeFormatter e pid) ts LOG_INFO body,
   format3164_eq (encodeFormatter e pid) ts LOG_INFO body⟩

/-- C10: whenever encode_event returns (rather than aborting in an unwrap),
the returned option is Some: the None branch of the interface is never
taken. -/
theorem encode_event_never_none (e : LogEvent) (pid : Nat) (enc : EncodingConfig)
    (ts : String) (r : Option String) (h : encode_event e pid enc ts = .ok r) :
    ∃ s, r = some s := by
  rcases encode_cases e pid enc ts with ⟨_, o, _, he⟩ | ⟨_, _, he⟩ | ⟨_, he⟩ <;>
    rw [he] at h
  · cases h
    exact ⟨_, rfl⟩
  · cases h
  · cases h
    exact ⟨_, rfl⟩

/-- C10 witness at a concrete Text-codec event. -/
theorem encode_event_never_none_witness :
    ∃ s, (some "<14>Oct 11 00:00:00 vector[0]: hello\n" : Option String) = some s :=
  encode_event_never_none [("message", Value.str "hello")] 0
    ⟨Encoding.Text, none, none⟩ "Oct 11 00:00:00"
    (some "<14>Oct 11 00:00:00 vector[0]: hello\n") rfl

end Papertrail
